import Mathlib

/-!
Verification of the document-to-relational mapping layer of `nosqlite.py`
(williamstein/nosqlite) against its natural-language specification.

The Python source is shallowly embedded:

* Python values handled by the layer are modelled by the mutual inductive
  `PyVal`/`PyList` (null, bool, int, float, str, list).  Python floats only
  ever pass through the code unchanged, so they are carried as an abstract
  exact token (a rational); no floating-point arithmetic is modelled.
  Python 2 `long` coincides with `int` here, and the optional Sage branches
  of `_coerce_` are omitted because without Sage `is_Integer`/`is_RealNumber`
  are the constant-false fallbacks defined at the top of the file.
* The `cPickle.dumps → zlib.compress → base64.b64encode` pipeline used by
  `Client._coerce_` is external library code; it is modelled by the concrete
  injective serializer `PyVal.enc` with inverse `PyVal.dec` (failure of
  `cPickle.loads` on a malformed payload is `Option.none`).
* Strings are `List Char`.
-/

set_option maxHeartbeats 1000000
set_option synthInstance.maxHeartbeats 400000

namespace Nosqlite

mutual

/-- Model of the Python values the mapping layer handles. -/
inductive PyVal : Type where
  | none : PyVal
  | bool (b : Bool) : PyVal
  | int (n : Int) : PyVal
  | float (q : Rat) : PyVal
  | str (s : List Char) : PyVal
  | list (l : PyList) : PyVal
  deriving DecidableEq

/-- Lists of Python values (the composite/aggregate case of the model). -/
inductive PyList : Type where
  | nil : PyList
  | cons (hd : PyVal) (tl : PyList) : PyList
  deriving DecidableEq

end

/-- Length of a modelled Python list. -/
def PyList.length : PyList → Nat
  | .nil => 0
  | .cons _ tl => tl.length + 1

/-! ### The stand-in for the pickle/zlib/base64 pipeline

A simple prefix code: naturals in unary with a `:` terminator, integers with
a sign character, strings and lists length-prefixed.  It is exactly as
injective as the real pipeline and lets the round-trip contract be settled
against the branch structure of `_coerce_`/`_coerce_back_`, which is the
code under test. -/

/-- Unary encoding of a natural number, terminated by `:`. -/
def encNat (n : Nat) : List Char := List.replicate n 'u' ++ [':']

/-- Signed integer encoding. -/
def encInt (n : Int) : List Char := (if n < 0 then '-' else '+') :: encNat n.natAbs

mutual

/-- Serialize a `PyVal` (stands for `base64(zlib(cPickle.dumps(v, 2)))`). -/
def PyVal.enc : PyVal → List Char
  | .none => ['N']
  | .bool b => ['B', if b then '1' else '0']
  | .int n => 'I' :: encInt n
  | .float q => 'F' :: (encInt q.num ++ encNat q.den)
  | .str s => 'S' :: (encNat s.length ++ s)
  | .list l => 'L' :: (encNat l.length ++ l.enc)

/-- Serialize the elements of a list, concatenated. -/
def PyList.enc : PyList → List Char
  | .nil => []
  | .cons v tl => v.enc ++ tl.enc

end

/-- Decode a unary natural; returns the value and the remaining input. -/
def decNat : List Char → Option (Nat × List Char)
  | 'u' :: r => (decNat r).map (fun p => (p.1 + 1, p.2))
  | ':' :: r => some (0, r)
  | _ => Option.none

/-- Decode a signed integer. -/
def decInt : List Char → Option (Int × List Char)
  | '-' :: r => (decNat r).map (fun p => (-(p.1 : Int), p.2))
  | '+' :: r => (decNat r).map (fun p => ((p.1 : Int), p.2))
  | _ => Option.none

mutual

/-- Deserialize one `PyVal` (stands for `cPickle.loads` after base64/zlib
decoding); `fuel` bounds the nesting depth that can be decoded. -/
def PyVal.dec : Nat → List Char → Option (PyVal × List Char)
  | _, 'N' :: r => some (.none, r)
  | _, 'B' :: c :: r => some (.bool (c == '1'), r)
  | _, 'I' :: r => (decInt r).map (fun p => (.int p.1, p.2))
  | _, 'F' :: r =>
      match decInt r with
      | some (n, r1) =>
          match decNat r1 with
          | some (d, r2) => some (.float (mkRat n d), r2)
          | Option.none => Option.none
      | Option.none => Option.none
  | _, 'S' :: r =>
      match decNat r with
      | some (n, r1) => some (.str (r1.take n), r1.drop n)
      | Option.none => Option.none
  | fuel + 1, 'L' :: r =>
      match decNat r with
      | some (n, r1) =>
          match PyList.dec fuel n r1 with
          | some (l, r2) => some (.list l, r2)
          | Option.none => Option.none
      | Option.none => Option.none
  | _, _ => Option.none
termination_by fuel _s => (fuel, 0)

/-- Deserialize exactly `n` consecutive values. -/
def PyList.dec : Nat → Nat → List Char → Option (PyList × List Char)
  | _, 0, r => some (.nil, r)
  | fuel, n + 1, r =>
      match PyVal.dec fuel r with
      | some (v, r1) =>
          match PyList.dec fuel n r1 with
          | some (l, r2) => some (.cons v l, r2)
          | Option.none => Option.none
      | Option.none => Option.none
termination_by fuel n _s => (fuel, n + 1)

end

mutual

/-- Nesting depth of a value: the fuel `PyVal.dec` needs. -/
def PyVal.depth : PyVal → Nat
  | .list l => l.depth + 1
  | _ => 0

/-- Nesting depth of a list of values. -/
def PyList.depth : PyList → Nat
  | .nil => 0
  | .cons v tl => max v.depth tl.depth

end

theorem decNat_encNat (n : Nat) (r : List Char) : decNat (encNat n ++ r) = some (n, r) := by
  induction n with
  | zero => simp [encNat, decNat]
  | succ k ih =>
      rw [encNat, List.replicate_succ]
      simpa [decNat, encNat] using ih

theorem decInt_encInt (n : Int) (r : List Char) : decInt (encInt n ++ r) = some (n, r) := by
  rcases lt_or_le n 0 with h | h
  · simp only [encInt, if_pos h, List.cons_append, decInt, decNat_encNat, Option.map_some']
    congr 2
    omega
  · simp only [encInt, if_neg (not_lt.mpr h), List.cons_append, decInt, decNat_encNat,
      Option.map_some']
    congr 2
    omega

mutual

theorem PyVal.dec_enc : ∀ (v : PyVal) (fuel : Nat) (r : List Char), v.depth ≤ fuel →
    PyVal.dec fuel (v.enc ++ r) = some (v, r)
  | .none, fuel, r, _ => by simp [PyVal.enc, PyVal.dec]
  | .bool b, fuel, r, _ => by cases b <;> simp [PyVal.enc, PyVal.dec]
  | .int n, fuel, r, _ => by
      simp [PyVal.enc, PyVal.dec, decInt_encInt]
  | .float q, fuel, r, _ => by
      simp [PyVal.enc, PyVal.dec, decInt_encInt, decNat_encNat, Rat.mkRat_self]
  | .str s, fuel, r, _ => by
      simp [PyVal.enc, PyVal.dec, decNat_encNat, List.take_left, List.drop_left]
  | .list l, 0, r, h => by simp [PyVal.depth] at h
  | .list l, fuel + 1, r, h => by
      have hl : l.depth ≤ fuel := by
        simpa [PyVal.depth] using h
      simp [PyVal.enc, PyVal.dec, decNat_encNat, PyList.dec_enc_list l fuel r hl]

theorem PyList.dec_enc_list : ∀ (l : PyList) (fuel : Nat) (r : List Char), l.depth ≤ fuel →
    PyList.dec fuel l.length (l.enc ++ r) = some (l, r)
  | .nil, fuel, r, _ => by simp [PyList.enc, PyList.length, PyList.dec]
  | .cons v tl, fuel, r, h => by
      have hv : v.depth ≤ fuel := le_trans (Nat.le_max_left _ _) (by simpa [PyList.depth] using h)
      have htl : tl.depth ≤ fuel := le_trans (Nat.le_max_right _ _) (by simpa [PyList.depth] using h)
      simp [PyList.enc, PyList.length, PyList.dec,
        PyVal.dec_enc v fuel (tl.enc ++ r) hv, PyList.dec_enc_list tl fuel r htl]

end

mutual

theorem PyVal.depth_le_enc_length : ∀ v : PyVal, v.depth ≤ v.enc.length
  | .none => by simp [PyVal.depth, PyVal.enc]
  | .bool b => by simp [PyVal.depth, PyVal.enc]
  | .int n => by simp [PyVal.depth, PyVal.enc]
  | .float q => by simp [PyVal.depth, PyVal.enc]
  | .str s => by simp [PyVal.depth, PyVal.enc]
  | .list l => by
      have := PyList.depth_le_enc_list_length l
      simp only [PyVal.depth, PyVal.enc, List.length_cons, List.length_append]
      omega

theorem PyList.depth_le_enc_list_length : ∀ l : PyList, l.depth ≤ l.enc.length
  | .nil => by simp [PyList.depth, PyList.enc]
  | .cons v tl => by
      have h1 := PyVal.depth_le_enc_length v
      have h2 := PyList.depth_le_enc_list_length tl
      simp only [PyList.depth, PyList.enc, List.length_append]
      exact Nat.max_le.mpr ⟨le_trans h1 (Nat.le_add_right _ _), le_trans h2 (Nat.le_add_left _ _)⟩

end

/-! ### The Value Codec: `Client._coerce_` / `Client._coerce_back_`
(src/nosqlite.py lines 515-558) -/

/-- The fixed sentinel tag `'__pickle'` prepended to opaque-encoded blobs. -/
def sentinel : List Char := "__pickle".toList

/-- `Client._coerce_` (lines 515-545): booleans become 0/1; str, int, float
and `None` pass through; anything else is pickled behind the sentinel.
(The Sage branches are the constant-false fallback without Sage, and
`unicode` coincides with `str` in this model.) -/
def Client._coerce_ : PyVal → PyVal
  | .bool b => .int (if b then 1 else 0)
  | .str s => .str s
  | .int n => .int n
  | .float q => .float q
  | .none => .none
  | v => .str (sentinel ++ v.enc)

/-- `Client._coerce_back_` (lines 547-558): a string starting with the
sentinel is stripped and unpickled (`Option.none` models the exception
`cPickle.loads` raises on a malformed payload); everything else passes
through unchanged. -/
def Client._coerce_back_ : PyVal → Option PyVal
  | .str s =>
      if sentinel.isPrefixOf s then
        match PyVal.dec s.length (s.drop 8) with
        | some (v, _) => some v
        | Option.none => Option.none
      else some (.str s)
  | v => some v

/-- Numeric interpretation used by Python's `==` across bool/int/float
(`True == 1`, `1 == 1.0`). -/
def numval? : PyVal → Option Rat
  | .bool b => some (if b then 1 else 0)
  | .int n => some (n : Rat)
  | .float q => some q
  | _ => Option.none

mutual

/-- Python 2's `==` on modelled values: numeric kinds compare by value,
strings and `None` by identity of content, lists pointwise. -/
def PyVal.pyEq : PyVal → PyVal → Bool
  | .str s, .str t => s == t
  | .none, .none => true
  | .list l, .list m => PyList.pyEq l m
  | v, w =>
      match numval? v, numval? w with
      | some a, some b => a == b
      | _, _ => false

/-- Pointwise `==` on lists. -/
def PyList.pyEq : PyList → PyList → Bool
  | .nil, .nil => true
  | .cons v l, .cons w m => PyVal.pyEq v w && PyList.pyEq l m
  | _, _ => false

end

mutual

theorem PyVal.pyEq_refl : ∀ v : PyVal, v.pyEq v = true
  | .none => by simp [PyVal.pyEq]
  | .bool b => by cases b <;> simp [PyVal.pyEq, numval?]
  | .int n => by simp [PyVal.pyEq, numval?]
  | .float q => by simp [PyVal.pyEq, numval?]
  | .str s => by simp [PyVal.pyEq]
  | .list l => by simp [PyVal.pyEq, PyList.pyEq_list_refl l]

theorem PyList.pyEq_list_refl : ∀ l : PyList, PyList.pyEq l l = true
  | .nil => by simp [PyList.pyEq]
  | .cons v tl => by simp [PyList.pyEq, PyVal.pyEq_refl v, PyList.pyEq_list_refl tl]

end

/-- The value `_coerce_back_ ∘ _coerce_` actually lands on: booleans come
back as their 0/1 integers (equal under Python's `==`), everything else
comes back as itself. -/
def pyCanon : PyVal → PyVal
  | .bool b => .int (if b then 1 else 0)
  | v => v

/-- Is `v` a string that already starts with the sentinel tag? -/
def isSentinelStr : PyVal → Bool
  | .str s => sentinel.isPrefixOf s
  | _ => false

theorem coerce_back_coerce (v : PyVal) (h : isSentinelStr v = false) :
    Client._coerce_back_ (Client._coerce_ v) = some (pyCanon v) := by
  cases v with
  | none => rfl
  | bool b => cases b <;> rfl
  | int n => rfl
  | float q => rfl
  | str s =>
      simp only [isSentinelStr] at h
      simp [Client._coerce_, Client._coerce_back_, h, pyCanon]
  | list l =>
      have hpre : sentinel.isPrefixOf (sentinel ++ (PyVal.list l).enc) = true :=
        List.isPrefixOf_iff_prefix.mpr (List.prefix_append _ _)
      have hdrop : (sentinel ++ (PyVal.list l).enc).drop 8 = (PyVal.list l).enc := by
        have h8 : sentinel.length = 8 := by decide
        rw [← h8]
        exact List.drop_left sentinel (PyVal.list l).enc
      have hfuel : (PyVal.list l).depth ≤ (sentinel ++ (PyVal.list l).enc).length := by
        have := PyVal.depth_le_enc_length (.list l)
        simp only [List.length_append]
        omega
      have hdec := PyVal.dec_enc (.list l) (sentinel ++ (PyVal.list l).enc).length [] hfuel
      rw [List.append_nil] at hdec
      simp only [List.length_append] at hdec
      simp [Client._coerce_, Client._coerce_back_, hpre, hdrop, hdec, pyCanon]

/-- **C1** (amended).  The Value Codec round-trips for every modelled value
except strings that themselves start with the sentinel tag `'__pickle'`:
`_coerce_back_ (_coerce_ v)` succeeds and returns a value equal to `v`
under the host language's `==` (booleans come back as their 0/1 integers,
which compare equal). -/
theorem value_codec_roundtrip (v : PyVal) (h : isSentinelStr v = false) :
    Client._coerce_back_ (Client._coerce_ v) = some (pyCanon v) ∧
      PyVal.pyEq v (pyCanon v) = true := by
  refine ⟨coerce_back_coerce v h, ?_⟩
  cases v with
  | bool b => cases b <;> simp [pyCanon, PyVal.pyEq, numval?]
  | none => exact PyVal.pyEq_refl _
  | int n => exact PyVal.pyEq_refl _
  | float q => exact PyVal.pyEq_refl _
  | str s => exact PyVal.pyEq_refl _
  | list l => exact PyVal.pyEq_refl _

/-- The spec's own example value `[1, 2, "nested"]`. -/
def exampleList : PyVal :=
  .list (.cons (.int 1) (.cons (.int 2) (.cons (.str "nested".toList) .nil)))

/-- Witness for **C1**: the round-trip theorem applied to the spec's example
composite value `[1, 2, "nested"]`. -/
theorem value_codec_roundtrip_witness :
    isSentinelStr exampleList = false ∧
      (Client._coerce_back_ (Client._coerce_ exampleList) = some (pyCanon exampleList) ∧
        PyVal.pyEq exampleList (pyCanon exampleList) = true) :=
  ⟨by decide, value_codec_roundtrip exampleList (by decide)⟩

/-- A string that already carries the sentinel prefix: the pickled form of
the integer 5, as `_coerce_` would produce it for the value `5`-wrapped. -/
def badStr : List Char := sentinel ++ (PyVal.int 5).enc

/-- **C1** (counterexample).  The claim `decode(encode(v)) == v` for *every*
representable value fails at the string value `'__pickle' + pickle(5)`:
`_coerce_` passes it through unchanged (it is a `str`), but
`_coerce_back_` recognizes the sentinel and unpickles it to the integer 5,
which is not `==` to the original string. -/
theorem value_codec_sentinel_counterexample :
    Client._coerce_back_ (Client._coerce_ (.str badStr)) = some (.int 5) ∧
      PyVal.pyEq (.str badStr) (.int 5) = false := by
  constructor
  · have hpre : sentinel.isPrefixOf badStr = true :=
      List.isPrefixOf_iff_prefix.mpr (List.prefix_append _ _)
    have hdrop : badStr.drop 8 = (PyVal.int 5).enc := by
      have h8 : sentinel.length = 8 := by decide
      rw [badStr, ← h8]
      exact List.drop_left sentinel (PyVal.int 5).enc
    have hdec := PyVal.dec_enc (.int 5) badStr.length [] (by simp [PyVal.depth])
    rw [List.append_nil] at hdec
    simp [Client._coerce_, Client._coerce_back_, hpre, hdrop, hdec]
  · simp [PyVal.pyEq, numval?]

/-! ### The Index Name Codec
`Collection._index_pattern` (src/nosqlite.py lines 1053-1062) encodes a
sort specification into an index name; `Collection.indexes` (lines
1106-1122) decodes names back into field-to-direction maps. -/

/-- The separator token `'___'` used inside index names. -/
def sep3 : List Char := ['_', '_', '_']

/-- `cols.replace(',', '___')`. -/
def replaceComma (s : List Char) : List Char :=
  s.flatMap (fun c => if c = ',' then sep3 else [c])

/-- `cols.replace(' ', '')`. -/
def dropSpaces (s : List Char) : List Char := s.filter (fun c => !(c == ' '))

/-- `'DESC' if direction < 0 else 'ASC'`. -/
def dirWord (d : Int) : List Char := if d < 0 then "DESC".toList else "ASC".toList

/-- Comparison on `(field, direction)` pairs by field name, modelling
Python's `sorted(kwds.iteritems())` (field names of a dict are distinct,
so the direction tie-break never matters). -/
def keyLe (p q : List Char × Int) : Prop := p.1 ≤ q.1

instance : DecidableRel keyLe := fun p q => inferInstanceAs (Decidable (p.1 ≤ q.1))

/-- `Collection._index_pattern` (lines 1053-1062): sort the field/direction
pairs, render them as `"field ASC|DESC"` joined by commas, then build the
name `idx___<collection>___<cols with ',' -> '___' and ' ' deleted>`.
Returns the `(cols, index_name)` pair. -/
def _index_pattern (collName : List Char) (kwds : List (List Char × Int)) :
    List Char × List Char :=
  let spec := List.insertionSort keyLe kwds
  let cols := List.intercalate [','] (spec.map (fun p => p.1 ++ ' ' :: dirWord p.2))
  (cols, "idx".toList ++ sep3 ++ collName ++ sep3 ++ dropSpaces (replaceComma cols))

/-- Python's `name.split('___')`: greedy leftmost split on the
three-underscore separator token. -/
def split3 : List Char → List (List Char)
  | [] => [[]]
  | a :: rest =>
      if a = '_' ∧ ['_', '_'] <+: rest then
        [] :: split3 (rest.drop 2)
      else
        match split3 rest with
        | [] => [[a]]
        | g :: gs => (a :: g) :: gs
termination_by s => s.length
decreasing_by
  · simp only [List.length_drop, List.length_cons]
    omega
  · simp only [List.length_cons]
    omega

/-- Dictionary assignment `d[k] = v` on an insertion-ordered association
list: overwrite an existing entry, else append. -/
def assocPut (d : List (List Char × Int)) (k : List Char) (v : Int) :
    List (List Char × Int) :=
  if d.any (fun p => p.1 == k) then d.map (fun p => if p.1 == k then (k, v) else p)
  else d ++ [(k, v)]

/-- Decoding step of `Collection.indexes` (lines 1116-1120): classify one
token by its `ASC`/`DESC` suffix and record field and direction. -/
def classifyTok (d : List (List Char × Int)) (a : List Char) :
    List (List Char × Int) :=
  if "ASC".toList.isSuffixOf a then assocPut d (a.take (a.length - 3)) 1
  else assocPut d (a.take (a.length - 4)) (-1)

/-- `Collection.indexes` decoding of one index name (lines 1114-1121):
split on `'___'`, drop the `idx` tag and the collection name, and fold the
token classifier into a dictionary. -/
def indexes_decode (name : List Char) : List (List Char × Int) :=
  ((split3 name).drop 2).foldl classifyTok []

/-- A chunk reassembles safely around `'___'` separators: even with two
more underscores appended it contains no occurrence of the separator.
This rules out chunks containing `'___'` and chunks ending in `'_'`. -/
def chunkOk (c : List Char) : Prop := ¬ sep3 <:+: (c ++ ['_', '_'])

instance : DecidablePred chunkOk := fun x => inferInstanceAs (Decidable (¬ sep3 <:+: (x ++ ['_', '_'])))

theorem infixExtendRight {l x y : List Char} (h : l <:+: x) : l <:+: x ++ y :=
  h.trans (List.prefix_append x y).isInfix

theorem chunkOk.noSep {c : List Char} (h : chunkOk c) : ¬ sep3 <:+: c :=
  fun hc => h (infixExtendRight hc)

theorem split3_of_not_infix (s : List Char) (h : ¬ sep3 <:+: s) : split3 s = [s] := by
  induction s with
  | nil => simp [split3]
  | cons a rest ih =>
      have hcond : ¬ (a = '_' ∧ ['_', '_'] <+: rest) := by
        rintro ⟨ha, hpre⟩
        exact h (List.IsPrefix.isInfix (by rw [ha]; exact List.cons_prefix_cons.mpr ⟨rfl, hpre⟩))
      have hrest : ¬ sep3 <:+: rest := fun hc => h (List.infix_cons hc)
      rw [split3, if_neg hcond, ih hrest]

theorem split3_append_sep (c rest : List Char) (hc : chunkOk c) :
    split3 (c ++ sep3 ++ rest) = c :: split3 rest := by
  induction c with
  | nil =>
      show split3 ('_' :: ('_' :: '_' :: rest)) = [] :: split3 rest
      rw [split3, if_pos ⟨rfl, List.cons_prefix_cons.mpr ⟨rfl, List.cons_prefix_cons.mpr
        ⟨rfl, List.nil_prefix⟩⟩⟩]
      rfl
  | cons a c' ih =>
      have hcond : ¬ (a = '_' ∧ ['_', '_'] <+: (c' ++ sep3 ++ rest)) := by
        rintro ⟨ha, hpre⟩
        subst ha
        rcases c' with _ | ⟨b, c''⟩
        · exact hc (by decide)
        · rcases List.cons_prefix_cons.mp hpre with ⟨hb, hpre'⟩
          subst hb
          rcases c'' with _ | ⟨d, c'''⟩
          · exact hc (by decide)
          · rcases List.cons_prefix_cons.mp hpre' with ⟨hd, -⟩
            subst hd
            refine hc (infixExtendRight (List.IsPrefix.isInfix ?_))
            exact List.cons_prefix_cons.mpr ⟨rfl, List.cons_prefix_cons.mpr ⟨rfl,
              List.cons_prefix_cons.mpr ⟨rfl, List.nil_prefix⟩⟩⟩
      have hc' : chunkOk c' := fun h => hc (List.infix_cons h)
      have : ((a :: c') ++ sep3 ++ rest) = a :: (c' ++ sep3 ++ rest) := by simp
      rw [this, split3, if_neg hcond, ih hc']

theorem split3_intercalate (chunks : List (List Char)) (hne : chunks ≠ [])
    (h : ∀ c ∈ chunks, chunkOk c) :
    split3 (List.intercalate sep3 chunks) = chunks := by
  induction chunks with
  | nil => exact absurd rfl hne
  | cons c t ih =>
      rcases t with _ | ⟨c2, t'⟩
      · have hint : List.intercalate sep3 [c] = c := by
          simp [List.intercalate, List.intersperse]
        rw [hint]
        exact split3_of_not_infix c (chunkOk.noSep (h c (by simp)))
      · have hint : List.intercalate sep3 (c :: c2 :: t') =
            c ++ sep3 ++ List.intercalate sep3 (c2 :: t') := by
          simp [List.intercalate, List.intersperse]
        rw [hint, split3_append_sep c _ (h c (by simp)),
          ih (by simp) (fun x hx => h x (by simp [hx]))]

theorem chunkOk_append (nm mid : List Char) (hnm : chunkOk nm)
    (hmid : ∀ c ∈ mid, c ≠ '_') (hlen : 2 ≤ mid.length) : chunkOk (nm ++ mid) := by
  rintro ⟨s, t, hst⟩
  have hlen2 : s.length + 3 + t.length = nm.length + mid.length + 2 := by
    have h := congrArg List.length hst
    simp [sep3] at h
    omega
  have hBk : ∀ k, k < 3 → ((nm ++ mid) ++ ['_', '_'])[s.length + k]? = some '_' := by
    intro k hk
    rw [← hst, List.append_assoc]
    rw [List.getElem?_append_right (by omega)]
    have he : s.length + k - s.length = k := by omega
    rw [he, List.getElem?_append_left (by simp [sep3]; omega)]
    interval_cases k <;> rfl
  have hzone : ∀ k, k < 3 → nm.length ≤ s.length + k →
      s.length + k < nm.length + mid.length → False := by
    intro k hk3 hz1 hz2
    have hb := hBk k hk3
    rw [List.getElem?_append_left (by rw [List.length_append]; omega)] at hb
    rw [List.getElem?_append_right hz1] at hb
    exact hmid _ (List.getElem?_mem hb) rfl
  by_cases h1 : s.length + 3 ≤ nm.length
  · have hk : ∀ k, k < 3 → ∀ hh : s.length + k < nm.length, nm[s.length + k] = '_' := by
      intro k hk hh
      have hb := hBk k hk
      rw [List.getElem?_append_left (by rw [List.length_append]; omega)] at hb
      rw [List.getElem?_append_left hh] at hb
      rw [List.getElem?_eq_getElem hh] at hb
      exact Option.some.inj hb
    have g0 : nm[s.length] = '_' := by simpa using hk 0 (by omega) (by omega)
    have g1 : nm[s.length + 1] = '_' := hk 1 (by omega) (by omega)
    have g2 : nm[s.length + 2] = '_' := hk 2 (by omega) (by omega)
    have hdrop3 : nm.drop s.length = sep3 ++ nm.drop (s.length + 3) := by
      rw [List.drop_eq_getElem_cons (show s.length < nm.length by omega), g0]
      rw [List.drop_eq_getElem_cons (show s.length + 1 < nm.length by omega), g1]
      rw [List.drop_eq_getElem_cons (show s.length + 1 + 1 < nm.length by omega)]
      exact congrArg (fun c => ('_' :: '_' :: c :: List.drop (s.length + 3) nm : List Char)) g2
    have hinf : sep3 <:+: nm := by
      refine ⟨nm.take s.length, nm.drop (s.length + 3), ?_⟩
      rw [List.append_assoc]
      conv_rhs => rw [← List.take_append_drop s.length nm, hdrop3]
    exact hnm (infixExtendRight hinf)
  · rcases le_or_lt nm.length s.length with hcase | hcase
    · exact hzone 0 (by omega) (by omega) (by omega)
    · exact hzone (nm.length - s.length) (by omega) (by omega) (by omega)

theorem intercalate_two {α : Type} (s a b : List α) (t : List (List α)) :
    List.intercalate s (a :: b :: t) = a ++ s ++ List.intercalate s (b :: t) := by
  simp [List.intercalate, List.intersperse]

theorem intercalate_single {α : Type} (s a : List α) :
    List.intercalate s [a] = a := by
  simp [List.intercalate, List.intersperse]

theorem replaceComma_append (x y : List Char) :
    replaceComma (x ++ y) = replaceComma x ++ replaceComma y :=
  List.flatMap_append x y _

theorem dropSpaces_append (x y : List Char) :
    dropSpaces (x ++ y) = dropSpaces x ++ dropSpaces y :=
  List.filter_append x y

theorem replaceComma_id (s : List Char) (h : ∀ c ∈ s, c ≠ ',') :
    replaceComma s = s := by
  induction s with
  | nil => rfl
  | cons a t ih =>
      have ha : a ≠ ',' := h a (by simp)
      simp only [replaceComma, List.flatMap_cons, if_neg ha]
      have := ih (fun c hc => h c (by simp [hc]))
      simp only [replaceComma] at this
      rw [this]
      rfl

theorem dropSpaces_id (s : List Char) (h : ∀ c ∈ s, c ≠ ' ') :
    dropSpaces s = s :=
  List.filter_eq_self.mpr (fun a ha => by simpa using h a ha)

theorem processed_intercalate (ps : List (List Char)) :
    dropSpaces (replaceComma (List.intercalate [','] ps)) =
      List.intercalate sep3 (ps.map (fun p => dropSpaces (replaceComma p))) := by
  induction ps with
  | nil => rfl
  | cons p t ih =>
      rcases t with _ | ⟨q, t'⟩
      · rw [intercalate_single, List.map_cons, List.map_nil, intercalate_single]
      · rw [List.map_cons] at ih
        rw [intercalate_two, replaceComma_append, replaceComma_append, dropSpaces_append,
          dropSpaces_append, List.map_cons, List.map_cons, intercalate_two, ih]
        have hsep : dropSpaces (replaceComma [',']) = sep3 := by decide
        rw [hsep]

theorem dirWord_no_underscore (d : Int) : ∀ c ∈ dirWord d, c ≠ '_' := by
  rw [dirWord]
  split
  · decide
  · decide

theorem dirWord_no_space_comma (d : Int) : ∀ c ∈ dirWord d, c ≠ ' ' ∧ c ≠ ',' := by
  rw [dirWord]
  split
  · decide
  · decide

theorem dirWord_length (d : Int) : 2 ≤ (dirWord d).length := by
  rw [dirWord]
  split
  · decide
  · decide

/-- Processing one rendered `"field ASC|DESC"` piece yields the bare
`field ++ direction-word` token. -/
theorem processed_piece (nm : List Char) (d : Int)
    (h : ∀ c ∈ nm, c ≠ ' ' ∧ c ≠ ',') :
    dropSpaces (replaceComma (nm ++ ' ' :: dirWord d)) = nm ++ dirWord d := by
  rw [replaceComma_append, dropSpaces_append]
  rw [replaceComma_id nm (fun c hc => (h c hc).2), dropSpaces_id nm (fun c hc => (h c hc).1)]
  have h2 : replaceComma (' ' :: dirWord d) = ' ' :: dirWord d := by
    refine replaceComma_id _ ?_
    intro c hc
    rcases List.mem_cons.mp hc with h | h
    · rw [h]; decide
    · exact (dirWord_no_space_comma d c h).2
  rw [h2]
  have h3 : dropSpaces (' ' :: dirWord d) = dirWord d := by
    rw [show (' ' :: dirWord d) = [' '] ++ dirWord d from rfl, dropSpaces_append]
    rw [dropSpaces_id _ (fun c hc => (dirWord_no_space_comma d c hc).1)]
    rfl
  rw [h3]

theorem asc_suffix_desc_false (nm : List Char) :
    "ASC".toList.isSuffixOf (nm ++ "DESC".toList) = false := by
  rw [← Bool.not_eq_true]
  intro hb
  have h := List.isSuffixOf_iff_suffix.mp hb
  have h2 : "ASC".toList.reverse <+: (nm ++ "DESC".toList).reverse :=
    List.reverse_prefix.mpr h
  rw [List.reverse_append] at h2
  have e1 : ("DESC".toList).reverse = ['C', 'S', 'E', 'D'] := by decide
  have e2 : ("ASC".toList).reverse = ['C', 'S', 'A'] := by decide
  rw [e1, e2] at h2
  rcases List.cons_prefix_cons.mp h2 with ⟨-, h3⟩
  rcases List.cons_prefix_cons.mp h3 with ⟨-, h4⟩
  rcases List.cons_prefix_cons.mp h4 with ⟨h5, -⟩
  exact absurd h5 (by decide)

/-- Classifying the token of a field sorted ascending or descending
recovers the field name and the 1 / −1 direction. -/
theorem classifyTok_token (acc : List (List Char × Int)) (nm : List Char) (d : Int)
    (hd : d = 1 ∨ d = -1) :
    classifyTok acc (nm ++ dirWord d) = assocPut acc nm d := by
  rcases hd with hd | hd <;> subst hd
  · have hw : dirWord 1 = "ASC".toList := by rw [dirWord, if_neg (by omega)]
    rw [hw, classifyTok]
    rw [if_pos (List.isSuffixOf_iff_suffix.mpr (List.suffix_append _ _))]
    have hl : (nm ++ "ASC".toList).length - 3 = nm.length := by
      rw [List.length_append]
      rfl
    rw [hl, List.take_left]
  · have hw : dirWord (-1) = "DESC".toList := by rw [dirWord, if_pos (by omega)]
    rw [hw, classifyTok, if_neg (by rw [asc_suffix_desc_false]; simp)]
    have hl : (nm ++ "DESC".toList).length - 4 = nm.length := by
      rw [List.length_append]
      rfl
    rw [hl, List.take_left]

theorem assocPut_fresh (d : List (List Char × Int)) (k : List Char) (v : Int)
    (h : ∀ q ∈ d, q.1 ≠ k) : assocPut d k v = d ++ [(k, v)] := by
  rw [assocPut, if_neg]
  intro hany
  rcases List.any_eq_true.mp hany with ⟨p, hp, hpk⟩
  exact h p hp (by simpa using hpk)

theorem foldl_classify (spec : List (List Char × Int)) :
    ∀ d : List (List Char × Int),
    (∀ p ∈ spec, p.2 = 1 ∨ p.2 = -1) →
    (spec.map Prod.fst).Nodup →
    (∀ p ∈ spec, ∀ q ∈ d, q.1 ≠ p.1) →
    List.foldl classifyTok d (spec.map (fun p => p.1 ++ dirWord p.2)) = d ++ spec := by
  induction spec with
  | nil => intro d _ _ _; simp
  | cons hd t ih =>
      intro d hdir hnodup hfresh
      have hnodup' : hd.1 ∉ t.map Prod.fst ∧ (t.map Prod.fst).Nodup := by
        rw [List.map_cons, List.nodup_cons] at hnodup
        exact hnodup
      rw [List.map_cons, List.foldl_cons,
        classifyTok_token d hd.1 hd.2 (hdir hd (by simp)),
        assocPut_fresh d hd.1 hd.2 (fun qq hq => hfresh hd (by simp) qq hq)]
      rw [ih (d ++ [hd]) (fun x hx => hdir x (by simp [hx])) hnodup'.2 ?_]
      · simp
      · intro x hx qq hq
        rcases List.mem_append.mp hq with hq | hq
        · exact hfresh x (by simp [hx]) qq hq
        · have hqhd : qq = hd := by simpa using hq
          subst hqhd
          intro hcontra
          exact hnodup'.1 (by rw [hcontra]; exact List.mem_map_of_mem Prod.fst hx)

/-- A field name the amended Index Name Codec claim covers: no space or
comma characters (which the encoder deletes/replaces irreversibly) and
safe around the `'___'` separator (no `'___'` inside, not ending in
`'_'`). -/
def fieldOk (nm : List Char) : Prop := (∀ c ∈ nm, c ≠ ' ' ∧ c ≠ ',') ∧ chunkOk nm

instance : DecidablePred fieldOk := fun nm =>
  inferInstanceAs (Decidable ((∀ c ∈ nm, c ≠ ' ' ∧ c ≠ ',') ∧ chunkOk nm))

/-- **C4** (amended).  For a nonempty sort specification with distinct
field names drawn from the separator-safe alphabet (no spaces, commas, or
`'___'` substrings, not ending in `'_'`; likewise the collection name) and
directions in {1, −1}, the Index Name Codec is reversible: decoding the
encoded index name recovers the field-to-direction map (as the
field-sorted list of pairs, a permutation of the input). -/
theorem index_codec_roundtrip (coll : List Char) (kwds : List (List Char × Int))
    (hne : kwds ≠ [])
    (hcoll : chunkOk coll)
    (hfields : ∀ p ∈ kwds, fieldOk p.1)
    (hdirs : ∀ p ∈ kwds, p.2 = 1 ∨ p.2 = -1)
    (hnodup : (kwds.map Prod.fst).Nodup) :
    indexes_decode (_index_pattern coll kwds).2 = List.insertionSort keyLe kwds ∧
      (List.insertionSort keyLe kwds).Perm kwds := by
  have hperm : (List.insertionSort keyLe kwds).Perm kwds := List.perm_insertionSort keyLe kwds
  refine ⟨?_, hperm⟩
  set spec := List.insertionSort keyLe kwds with hspec
  have hmem : ∀ p ∈ spec, p ∈ kwds := fun p hp => hperm.mem_iff.mp hp
  have hfields2 : ∀ p ∈ spec, fieldOk p.1 := fun p hp => hfields p (hmem p hp)
  have hdirs2 : ∀ p ∈ spec, p.2 = 1 ∨ p.2 = -1 := fun p hp => hdirs p (hmem p hp)
  have hnodup2 : (spec.map Prod.fst).Nodup := ((hperm.map Prod.fst).symm).nodup hnodup
  have hspecne : spec ≠ [] := by
    intro h
    rw [h] at hperm
    exact hne hperm.symm.eq_nil
  have hname : (_index_pattern coll kwds).2 =
      List.intercalate sep3
        ("idx".toList :: coll :: spec.map (fun p => p.1 ++ dirWord p.2)) := by
    show "idx".toList ++ sep3 ++ coll ++ sep3 ++ dropSpaces (replaceComma
        (List.intercalate [','] (spec.map (fun p => p.1 ++ ' ' :: dirWord p.2)))) = _
    rw [processed_intercalate, List.map_map]
    have hfun : spec.map ((fun p => dropSpaces (replaceComma p)) ∘
        (fun p : List Char × Int => p.1 ++ ' ' :: dirWord p.2)) =
        spec.map (fun p => p.1 ++ dirWord p.2) :=
      List.map_congr_left (fun p hp => processed_piece p.1 p.2 (hfields2 p hp).1)
    rw [hfun]
    obtain ⟨tok0, toks, htoks⟩ :
        ∃ a t, spec.map (fun p => p.1 ++ dirWord p.2) = a :: t := by
      cases hsp : spec with
      | nil => exact absurd hsp hspecne
      | cons p t => exact ⟨_, _, by rw [List.map_cons]⟩
    rw [htoks, intercalate_two, intercalate_two]
    simp [List.append_assoc]
  have hsplit : split3 (_index_pattern coll kwds).2 =
      "idx".toList :: coll :: spec.map (fun p => p.1 ++ dirWord p.2) := by
    rw [hname]
    refine split3_intercalate _ (by simp) ?_
    intro c hc
    rcases List.mem_cons.mp hc with hc | hc
    · rw [hc]; decide
    rcases List.mem_cons.mp hc with hc | hc
    · rw [hc]; exact hcoll
    obtain ⟨p, hp, hpc⟩ := List.mem_map.mp hc
    rw [← hpc]
    exact chunkOk_append p.1 (dirWord p.2) (hfields2 p hp).2
      (dirWord_no_underscore p.2) (dirWord_length p.2)
  rw [indexes_decode, hsplit]
  have hdrop : (("idx".toList :: coll :: spec.map (fun p => p.1 ++ dirWord p.2)).drop 2) =
      spec.map (fun p => p.1 ++ dirWord p.2) := rfl
  rw [hdrop]
  have := foldl_classify spec [] hdirs2 hnodup2 (fun p _ q hq => absurd hq (List.not_mem_nil q))
  simpa using this

/-- The spec's own example sort specification `{a: 1, b: -1}`. -/
def kwExample : List (List Char × Int) := [("a".toList, 1), ("b".toList, -1)]

/-- Witness for **C4**: the amended round-trip theorem applied to the
spec's example `{a: 1, b: -1}` over collection `C`. -/
theorem index_codec_roundtrip_witness :
    (kwExample ≠ [] ∧ chunkOk "C".toList ∧ (∀ p ∈ kwExample, fieldOk p.1) ∧
      (∀ p ∈ kwExample, p.2 = 1 ∨ p.2 = -1) ∧ (kwExample.map Prod.fst).Nodup) ∧
    (indexes_decode (_index_pattern "C".toList kwExample).2 =
        List.insertionSort keyLe kwExample ∧
      (List.insertionSort keyLe kwExample).Perm kwExample) :=
  ⟨by refine ⟨by decide, by decide, by decide, by decide, by decide⟩,
    index_codec_roundtrip "C".toList kwExample (by decide) (by decide) (by decide)
      (by decide) (by decide)⟩

/-- **C4** (counterexample).  The field name `a___b` — a name the system
accepts (it is a valid Python identifier and passes column validation) —
breaks the codec: `encode({a___b: 1})` over collection `C` decodes to
`{'': -1, b: 1}`, not `{a___b: 1}`, because the separator token occurs
inside the field name. -/
theorem index_codec_counterexample :
    indexes_decode (_index_pattern "C".toList [("a___b".toList, 1)]).2 =
      [([], -1), ("b".toList, 1)] ∧
    indexes_decode (_index_pattern "C".toList [("a___b".toList, 1)]).2 ≠
      [("a___b".toList, 1)] := by
  have hname : (_index_pattern "C".toList [("a___b".toList, 1)]).2 =
      "idx___C___a___bASC".toList := by decide
  have e1 : "idx___C___a___bASC".toList =
      "idx".toList ++ sep3 ++ "C___a___bASC".toList := by decide
  have e2 : "C___a___bASC".toList = "C".toList ++ sep3 ++ "a___bASC".toList := by decide
  have e3 : "a___bASC".toList = "a".toList ++ sep3 ++ "bASC".toList := by decide
  have hsplit : split3 ("idx___C___a___bASC".toList) =
      ["idx".toList, "C".toList, "a".toList, "bASC".toList] := by
    rw [e1, split3_append_sep _ _ (by decide), e2, split3_append_sep _ _ (by decide),
      e3, split3_append_sep _ _ (by decide), split3_of_not_infix _ (by decide)]
  have hdec : indexes_decode (_index_pattern "C".toList [("a___b".toList, 1)]).2 =
      [([], -1), ("b".toList, 1)] := by
    rw [indexes_decode, hname, hsplit]
    decide
  exact ⟨hdec, by rw [hdec]; decide⟩

/-! ### Documents and the Batch Grouper
`_constant_key_grouping` (src/nosqlite.py lines 1299-1321). -/

/-- A document: a field-name-to-value mapping, modelled as an ordered
association list.  Python 2 dict iteration order is an incidental artifact
of hashing and insertion history; the model's list order stands for that
incidental iteration order. -/
abbrev Doc := List (List Char × PyVal)

/-- `d.keys()`: the field names of a document in iteration order. -/
def docKeys (d : Doc) : List (List Char) := d.map Prod.fst

/-- One step of `_constant_key_grouping`: `x[k].append(a)` if the key
tuple `k = tuple(a.keys())` is already a key of the accumulator dict,
else `x[k] = [a]`. -/
def groupUpsert (x : List (List (List Char) × List Doc)) (a : Doc) :
    List (List (List Char) × List Doc) :=
  if x.any (fun g => g.1 == docKeys a) then
    x.map (fun g => if g.1 == docKeys a then (g.1, g.2 ++ [a]) else g)
  else x ++ [(docKeys a, [a])]

/-- `_constant_key_grouping(d)` (lines 1299-1321): group the list into
sublists keyed by the exact key tuple `tuple(a.keys())`, returning
`x.values()`. -/
def _constant_key_grouping (d : List Doc) : List (List Doc) :=
  (d.foldl groupUpsert []).map Prod.snd

/-- First group found for a key tuple in the accumulator dict. -/
def lookupGroup (x : List (List (List Char) × List Doc)) (k : List (List Char)) :
    List Doc :=
  ((x.find? (fun g => g.1 == k)).map Prod.snd).getD []

theorem groupUpsert_keys (x : List (List (List Char) × List Doc)) (a : Doc) :
    (groupUpsert x a).map Prod.fst =
      if x.any (fun g => g.1 == docKeys a) then x.map Prod.fst
      else x.map Prod.fst ++ [docKeys a] := by
  rw [groupUpsert]
  split
  · rw [List.map_map]
    refine congrArg₂ _ ?_ rfl
    funext g
    by_cases h : g.1 = docKeys a <;> simp [h]
  · simp

theorem lookupGroup_upsert (x : List (List (List Char) × List Doc)) (a : Doc)
    (k : List (List Char)) :
    lookupGroup (groupUpsert x a) k =
      lookupGroup x k ++ (if docKeys a = k then [a] else []) := by
  rw [groupUpsert]
  split
  · rename_i hany
    rw [lookupGroup, List.find?_map]
    have hcomp : ((fun g : List (List Char) × List Doc => g.1 == k) ∘
        (fun g => if g.1 == docKeys a then (g.1, g.2 ++ [a]) else g)) =
        fun g : List (List Char) × List Doc => g.1 == k := by
      funext g
      by_cases h : g.1 = docKeys a <;> simp [h]
    rw [hcomp]
    cases hf : x.find? (fun g => g.1 == k) with
    | none =>
        by_cases hk : docKeys a = k
        · obtain ⟨g, hg, hgk⟩ := List.any_eq_true.mp hany
          have hnone := List.find?_eq_none.mp hf g hg
          rw [eq_of_beq hgk, hk] at hnone
          simp at hnone
        · simp [lookupGroup, hf, hk]
    | some g =>
        have hgk : g.1 = k := by simpa using List.find?_some hf
        by_cases hk : docKeys a = k
        · simp [lookupGroup, hf, hgk, hk]
        · simp [lookupGroup, hf, hgk, hk, Ne.symm hk]
  · rename_i hany
    rw [lookupGroup, List.find?_append]
    cases hf : x.find? (fun g => g.1 == k) with
    | none =>
        by_cases hk : docKeys a = k
        · simp [lookupGroup, hf, hk]
        · simp [lookupGroup, hf, hk, Ne.symm hk]
    | some g =>
        have hgmem := List.mem_of_find?_eq_some hf
        have hgk : g.1 = k := by simpa using List.find?_some hf
        by_cases hk : docKeys a = k
        · exact absurd (List.any_eq_true.mpr ⟨g, hgmem, by simp [hgk, hk]⟩) hany
        · simp [lookupGroup, hf, hk]

theorem lookupGroup_foldl (ds : List Doc) :
    ∀ x (k : List (List Char)),
    lookupGroup (List.foldl groupUpsert x ds) k =
      lookupGroup x k ++ ds.filter (fun d => docKeys d == k) := by
  induction ds with
  | nil => intro x k; simp
  | cons a t ih =>
      intro x k
      rw [List.foldl_cons, ih, lookupGroup_upsert]
      by_cases hk : docKeys a = k
      · simp [List.filter_cons, hk]
      · simp [List.filter_cons, hk, Ne.symm hk]

theorem foldl_keys_grow (ds : List Doc) :
    ∀ x (k : List (List Char)), k ∈ x.map Prod.fst →
    k ∈ (List.foldl groupUpsert x ds).map Prod.fst := by
  induction ds with
  | nil => intro x k hk; simpa using hk
  | cons a t ih =>
      intro x k hk
      rw [List.foldl_cons]
      refine ih _ k ?_
      rw [groupUpsert_keys]
      split
      · exact hk
      · simp [List.mem_append.mpr (Or.inl hk)]

theorem foldl_keys_mem (ds : List Doc) :
    ∀ x (k : List (List Char)), k ∈ ds.map docKeys →
    k ∈ (List.foldl groupUpsert x ds).map Prod.fst := by
  induction ds with
  | nil => intro x k hk; simp at hk
  | cons a t ih =>
      intro x k hk
      rw [List.map_cons] at hk
      rcases List.mem_cons.mp hk with hk | hk
      · rw [List.foldl_cons]
        refine foldl_keys_grow t _ k ?_
        rw [groupUpsert_keys]
        split
        · rename_i hany
          obtain ⟨g, hg, hgk⟩ := List.any_eq_true.mp hany
          rw [hk, ← eq_of_beq hgk]
          exact List.mem_map_of_mem Prod.fst hg
        · simp [hk]
      · rw [List.foldl_cons]
        exact ih _ k hk

theorem groupUpsert_nodup (x : List (List (List Char) × List Doc)) (a : Doc)
    (h : (x.map Prod.fst).Nodup) : ((groupUpsert x a).map Prod.fst).Nodup := by
  rw [groupUpsert_keys]
  split
  · exact h
  · rename_i hany
    rw [List.nodup_append]
    refine ⟨h, List.nodup_singleton _, ?_⟩
    intro k hk hk2
    have hka : k = docKeys a := by simpa using hk2
    obtain ⟨g, hg, hgk⟩ := List.mem_map.mp hk
    have : x.any (fun g => g.1 == docKeys a) = true :=
      List.any_eq_true.mpr ⟨g, hg, by simp [hgk, hka]⟩
    simp [this] at hany

theorem foldl_nodup (ds : List Doc) :
    ∀ x, (x.map Prod.fst).Nodup →
    ((List.foldl groupUpsert x ds).map Prod.fst).Nodup := by
  induction ds with
  | nil => intro x h; simpa using h
  | cons a t ih => intro x h; exact ih _ (groupUpsert_nodup x a h)

theorem find_entry_of_nodup (x : List (List (List Char) × List Doc))
    (hx : (x.map Prod.fst).Nodup) :
    ∀ g ∈ x, x.find? (fun p => p.1 == g.1) = some g := by
  induction x with
  | nil => intro g hg; simp at hg
  | cons h t ih =>
      intro g hg
      rw [List.map_cons, List.nodup_cons] at hx
      rcases List.mem_cons.mp hg with hg | hg
      · rw [hg, List.find?_cons_of_pos _ (by simp)]
      · have hne : ¬ (h.1 == g.1) = true := by
          intro hb
          exact absurd (by rw [eq_of_beq hb]; exact List.mem_map_of_mem Prod.fst hg) hx.1
        rw [List.find?_cons_of_neg]
        · exact ih hx.2 g hg
        · exact hne

/-- **C5** (amended).  The batch grouper keys on the exact key tuple
`tuple(a.keys())`: for every document list and every key tuple occurring
in it, the grouping contains a group that is exactly the in-order sublist
of documents with that key tuple.  (Documents whose key sets are equal
but whose incidental key orders differ may land in different groups; see
the counterexample.) -/
theorem grouping_same_key_tuple (ds : List Doc) (k : List (List Char))
    (hk : k ∈ ds.map docKeys) :
    ds.filter (fun d => docKeys d == k) ∈ _constant_key_grouping ds := by
  have hmem := foldl_keys_mem ds [] k hk
  obtain ⟨g, hg, hgk⟩ := List.mem_map.mp hmem
  have hnodup := foldl_nodup ds [] (by simp)
  have hfind := find_entry_of_nodup _ hnodup g hg
  rw [hgk] at hfind
  have hlook := lookupGroup_foldl ds [] k
  simp only [lookupGroup, hfind, List.find?_nil, Option.map_some', Option.getD_some,
    Option.map_none', Option.getD_none, List.nil_append] at hlook
  rw [_constant_key_grouping, ← hlook]
  exact List.mem_map_of_mem Prod.snd hg

/-- The docstring's own example list from `_constant_key_grouping`. -/
def exampleDocs : List Doc :=
  [[("a".toList, .int 5), ("b".toList, .int 7)],
   [("a".toList, .int 10), ("c".toList, .int 4)],
   [("a".toList, .int 5), ("b".toList, .int 8)]]

/-- Witness for **C5**: in the docstring example, the two documents with
key tuple `(a, b)` form one group, in order. -/
theorem grouping_same_key_tuple_witness :
    ["a".toList, "b".toList] ∈ exampleDocs.map docKeys ∧
      exampleDocs.filter (fun d => docKeys d == ["a".toList, "b".toList]) ∈
        _constant_key_grouping exampleDocs :=
  ⟨by decide, grouping_same_key_tuple exampleDocs ["a".toList, "b".toList] (by decide)⟩

/-- **C5** (counterexample).  Two documents with the same key *set*
`{a, b}` but different incidental key orders are split into two distinct
singleton groups: the grouping key `tuple(a.keys())` is not normalized to
a canonical ordering. -/
theorem grouping_key_order_counterexample :
    _constant_key_grouping
        [[("a".toList, .int 1), ("b".toList, .int 2)],
         [("b".toList, .int 3), ("a".toList, .int 4)]] =
      [[[("a".toList, .int 1), ("b".toList, .int 2)]],
       [[("b".toList, .int 3), ("a".toList, .int 4)]]] ∧
    (docKeys [("a".toList, PyVal.int 1), ("b".toList, PyVal.int 2)]).Perm
      (docKeys [("b".toList, PyVal.int 3), ("a".toList, PyVal.int 4)]) ∧
    ¬ ∃ g ∈ _constant_key_grouping
        [[("a".toList, .int 1), ("b".toList, .int 2)],
         [("b".toList, .int 3), ("a".toList, .int 4)]],
        [("a".toList, PyVal.int 1), ("b".toList, PyVal.int 2)] ∈ g ∧
        [("b".toList, PyVal.int 3), ("a".toList, PyVal.int 4)] ∈ g := by
  refine ⟨by decide, by decide, ?_⟩
  decide

/-! ### The collection layer over the storage engine

One collection's backing table is modelled as `Option Table` (`none` =
table not yet created).  SQL statements issued through `Client.__call__`
are logged as `Stmt` values; the sqlite engine's semantics for exactly the
statements this layer issues are modelled by the `engine*` functions.
Engine failures follow the source's error path: `sqlite3.OperationalError`
is wrapped into `RuntimeError` by the server's `execute` (lines 257-258),
marshalled as an `xmlrpclib.Fault` by the XML-RPC transport, and re-raised
as `RuntimeError` by `Client.__call__` (lines 480-483) — so by the time a
collection method sees it, it is always a `RuntimeError`.  `clientCall`
models that pipeline. -/

instance {ε α : Type} [DecidableEq ε] [DecidableEq α] : DecidableEq (Except ε α) :=
  fun a b =>
    match a, b with
    | .ok x, .ok y =>
        if h : x = y then .isTrue (by rw [h]) else .isFalse (by intro hh; cases hh; exact h rfl)
    | .error x, .error y =>
        if h : x = y then .isTrue (by rw [h]) else .isFalse (by intro hh; cases hh; exact h rfl)
    | .ok _, .error _ => .isFalse (by intro hh; cases hh)
    | .error _, .ok _ => .isFalse (by intro hh; cases hh)

/-- Exception kinds seen by the mapping layer. -/
inductive Err : Type where
  | fault (msg : List Char) : Err
  | runtimeError (msg : List Char) : Err
  | valueError (msg : List Char) : Err
  | unpickleError : Err
  deriving DecidableEq

/-- The statements the modelled operations issue, in issue order. -/
inductive Stmt : Type where
  | pragmaTableInfo : Stmt
  | createTable (cols : List (List Char)) : Stmt
  | alterAddColumn (col : List Char) : Stmt
  | insertRow (cols : List (List Char)) : Stmt
  | selectCount : Stmt
  | selectPage (limit offset : Nat) : Stmt
  deriving DecidableEq

/-- One relational table: its column list and its rows (row values are
aligned with `cols`). -/
structure Table where
  cols : List (List Char)
  rows : List (List PyVal)
  deriving DecidableEq

/-- Backing-table state of one collection: `none` until first creation. -/
abbrev TableState := Option Table

/-- `Client.__call__`'s error translation (lines 480-483): any engine
error arrives as an `xmlrpclib.Fault` and is re-raised as
`RuntimeError`. -/
def clientCall {α : Type} (r : Except (List Char) α) : Except Err α :=
  match r with
  | .ok a => .ok a
  | .error msg => .error (.runtimeError msg)

/-- `PRAGMA table_info`: column names, empty for a missing table. -/
def enginePragma (ts : TableState) : List (List Char) :=
  match ts with
  | Option.none => []
  | some t => t.cols

/-- `CREATE TABLE IF NOT EXISTS "T" (cols)`: a syntax error for an empty
column list, a no-op if the table exists. -/
def engineCreate (ts : TableState) (cols : List (List Char)) :
    Except (List Char) TableState :=
  if cols = [] then .error "near \x22)\x22: syntax error".toList
  else
    match ts with
    | Option.none => .ok (some ⟨cols, []⟩)
    | some t => .ok (some t)

/-- `ALTER TABLE "T" ADD COLUMN "c"`: fails on a missing table or a
duplicate column; otherwise appends the column, existing rows holding
NULL in it. -/
def engineAlterAdd (ts : TableState) (col : List Char) :
    Except (List Char) TableState :=
  match ts with
  | Option.none => .error "no such table".toList
  | some t =>
      if col ∈ t.cols then .error "duplicate column name".toList
      else .ok (some ⟨t.cols ++ [col], t.rows.map (fun r => r ++ [PyVal.none])⟩)

/-- `INSERT INTO "T" (keys) VALUES (?...)` with values coerced by
`Client._coerce_` (the `coerce=True` binding path): named columns receive
the document's coerced values, all other columns NULL. -/
def engineInsertRow (ts : TableState) (d : Doc) : Except (List Char) TableState :=
  match ts with
  | Option.none => .error "no such table".toList
  | some t =>
      if (docKeys d).all (fun k => t.cols.contains k) then
        .ok (some ⟨t.cols, t.rows ++
          [t.cols.map (fun c =>
            match List.lookup c d with
            | some v => Client._coerce_ v
            | Option.none => PyVal.none)]⟩)
      else .error "no such column".toList

/-- `SELECT COUNT(*) FROM "T"`: fails on a missing table. -/
def engineCount (ts : TableState) : Except (List Char) Nat :=
  match ts with
  | Option.none => .error "no such table".toList
  | some t => .ok t.rows.length

namespace Collection

/-- `Collection._columns` (lines 1129-1138): the `PRAGMA table_info`
result, `[]` when the table does not exist. -/
def _columns (ts : TableState) : List (List Char) := enginePragma ts

/-- The fixed validation message (the source interpolates the offending
name into it; the interpolation is dropped here). -/
def quoteMsg : List Char := "column name must not contain a quote".toList

/-- `Collection._validate_column_names` (lines 724-751): `ValueError` on
the first column name containing a double quote. -/
def _validate_column_names (cols : List (List Char)) : Except Err Unit :=
  match cols.find? (fun c => c.contains '"') with
  | some _ => .error (.valueError quoteMsg)
  | Option.none => .ok ()

/-- `Collection._create` (lines 753-768): validate, then issue
`CREATE TABLE IF NOT EXISTS`. -/
def _create (ts : TableState) (cols : List (List Char)) :
    List Stmt × Except Err TableState :=
  match _validate_column_names cols with
  | .error e => ([], .error e)
  | .ok _ => ([Stmt.createTable cols], clientCall (engineCreate ts cols))

/-- The per-column loop of `_add_columns` (lines 1155-1163): each `ALTER
TABLE ... ADD COLUMN` is tried individually inside
`try: ... except xmlrpclib.Fault: pass` — a `Fault` would be swallowed,
any other exception propagates. -/
def addLoop (ts : TableState) : List (List Char) → List Stmt × Except Err TableState
  | [] => ([], .ok ts)
  | c :: rest =>
      match clientCall (engineAlterAdd ts c) with
      | .ok ts1 =>
          let r := addLoop ts1 rest
          (Stmt.alterAddColumn c :: r.1, r.2)
      | .error (.fault _) =>
          let r := addLoop ts rest
          (Stmt.alterAddColumn c :: r.1, r.2)
      | .error e => ([Stmt.alterAddColumn c], .error e)

/-- `Collection._add_columns` (lines 1148-1163): validate all names, then
add each column individually. -/
def _add_columns (ts : TableState) (newCols : List (List Char)) :
    List Stmt × Except Err TableState :=
  match _validate_column_names newCols with
  | .error e => ([], .error e)
  | .ok _ => addLoop ts newCols

/-- `Collection.insert` for a single document (lines 826-864, the
non-list path; `kwds` already merged into `d`): read the current columns
(`PRAGMA`), diff against the document's key set, create the table or add
the missing columns, then insert the bound row.  Python's `set(d.keys())`
iteration order is incidental; the model keeps document order. -/
def insert (ts : TableState) (d : Doc) : List Stmt × Except Err TableState :=
  let keys := docKeys d
  let current := _columns ts
  let newCols := keys.filter (fun k => !(current.contains k))
  let evolve := if current.isEmpty then _create ts newCols else _add_columns ts newCols
  match evolve with
  | (log, .error e) => (Stmt.pragmaTableInfo :: log, .error e)
  | (log, .ok ts1) =>
      match clientCall (engineInsertRow ts1 d) with
      | .ok ts2 => (Stmt.pragmaTableInfo :: (log ++ [Stmt.insertRow keys]), .ok ts2)
      | .error e => (Stmt.pragmaTableInfo :: (log ++ [Stmt.insertRow keys]), .error e)

/-- Decoding of one result row inside `find` (lines 1270-1272): convert
each value through `Client._coerce_back_`, zip against the column list,
and drop null fields; `Option.none` models a conversion exception. -/
def decodeRow (cols : List (List Char)) (x : List PyVal) : Option Doc :=
  (x.mapM Client._coerce_back_).map (fun vals =>
    (cols.zip vals).filter (fun a => !(a.2 == PyVal.none)))

/-- The `while True` loop of `Collection.find` (lines 1260-1277): re-read
the columns each round (nothing yielded if the table does not exist),
issue `SELECT * ... LIMIT l OFFSET o` where `l` is the explicit limit or
else `batch_size`, decode and yield the page, stop after one page when an
explicit limit was given or when a page is empty, else advance the offset
by `batch_size` and re-issue.  `keep` stands for the WHERE clause the
engine evaluates; the logged statements are the issued SELECTs.  The
source checks `limit is not None or len(v) == 0` after decoding the page;
the cases here are split the same way (the decode of an empty page
trivially succeeds, and with an explicit limit exactly one page is
issued), with the termination argument hung on the nonempty-page case. -/
def findLoop (ts : TableState) (keep : List PyVal → Bool) (batch : Nat)
    (limit : Option Nat) (offset : Nat) : List Stmt × Except Err (List Doc) :=
  match ts with
  | Option.none => ([], .ok [])
  | some t =>
      match limit with
      | some L =>
          match ((((t.rows.filter keep).drop offset).take L).mapM (decodeRow t.cols)) with
          | Option.none => ([Stmt.selectPage L offset], .error Err.unpickleError)
          | some docs => ([Stmt.selectPage L offset], .ok docs)
      | Option.none =>
          match hpage : ((t.rows.filter keep).drop offset).take batch with
          | [] => ([Stmt.selectPage batch offset], .ok [])
          | y :: ys =>
              match ((y :: ys).mapM (decodeRow t.cols)) with
              | Option.none => ([Stmt.selectPage batch offset], .error Err.unpickleError)
              | some docs =>
                  let r := findLoop ts keep batch Option.none (offset + batch)
                  (Stmt.selectPage batch offset :: r.1,
                    r.2.map (fun rest => docs ++ rest))
termination_by
  (match ts with
   | Option.none => 0
   | some t => (t.rows.filter keep).length + 1 - offset)
decreasing_by
  have h1 := congrArg List.length hpage
  rw [List.length_take, List.length_drop, List.length_cons] at h1
  omega

/-- `Collection.find` (lines 1246-1277) specialized to the default
projection (`fields=None`, `_rowid=False`). -/
def find (ts : TableState) (keep : List PyVal → Bool) (batch : Nat)
    (limit : Option Nat) (offset : Nat) : List Stmt × Except Err (List Doc) :=
  findLoop ts keep batch limit offset

/-- `Collection.count` (lines 1226-1236): run the `COUNT(*)` query and
return `self.database(cmd)[0]` — the first result *row*, a one-element
list. -/
def count (ts : TableState) (keep : List PyVal → Bool) :
    List Stmt × Except Err (List PyVal) :=
  match clientCall (engineCount (ts.map (fun t => ⟨t.cols, t.rows.filter keep⟩))) with
  | .ok n => ([Stmt.selectCount], .ok [PyVal.int n])
  | .error e => ([Stmt.selectCount], .error e)

/-- `Collection.__len__` (lines 703-722): try `SELECT COUNT(*)`; on
`RuntimeError` return 0 if the collection has no columns, else re-raise. -/
def lenColl (ts : TableState) : List Stmt × Except Err Nat :=
  match clientCall (engineCount ts) with
  | .ok n => ([Stmt.selectCount], .ok n)
  | .error (.runtimeError m) =>
      if (_columns ts).isEmpty then ([Stmt.selectCount, Stmt.pragmaTableInfo], .ok 0)
      else ([Stmt.selectCount, Stmt.pragmaTableInfo], .error (.runtimeError m))
  | .error e => ([Stmt.selectCount], .error e)

end Collection

/-- Chain a sequence of single-document inserts, stopping at the first
error (each call is one `Collection.insert`). -/
def insertSeq (ts : TableState) : List Doc → Except Err TableState
  | [] => .ok ts
  | d :: ds =>
      match (Collection.insert ts d).2 with
      | .ok ts1 => insertSeq ts1 ds
      | .error e => .error e

/-- **C2** (code evaluated at the failing input).  When the raced column
already exists — the situation the swallow is meant for — the `ALTER
TABLE` failure reaches the caller as a `RuntimeError`: the
`except xmlrpclib.Fault` in `_add_columns` never matches, because
`Client.__call__` has already converted the transport `Fault` into
`RuntimeError` (lines 480-483).  Second conjunct: no call through
`Client.__call__` can ever produce a `Fault`, so the swallow branch is
dead and the failure always surfaces, contradicting the claim (and the
source's own comment at lines 1159-1163). -/
theorem add_columns_race_surfaces :
    Collection._add_columns (some ⟨["a".toList, "x".toList], []⟩) ["x".toList] =
      ([Stmt.alterAddColumn "x".toList],
        .error (Err.runtimeError "duplicate column name".toList)) ∧
    ∀ (r : Except (List Char) TableState) (m : List Char),
      clientCall r ≠ .error (Err.fault m) := by
  refine ⟨rfl, ?_⟩
  intro r m h
  cases r with
  | ok a => simp [clientCall] at h
  | error msg => simp [clientCall] at h

/-- The state reached by inserting the seven documents `{i: k}`. -/
def sevenTab : Table :=
  ⟨["i".toList],
    [[PyVal.int 0], [PyVal.int 1], [PyVal.int 2], [PyVal.int 3],
     [PyVal.int 4], [PyVal.int 5], [PyVal.int 6]]⟩

/-- **C3** (code evaluated at the failing input).  After inserting 7
documents with unique field `i`, `count()` with no filter returns the
one-element result *row* `[7]` (`self.database(cmd)[0]`), not the bare
integer 7 that the claim — and `count`'s own docstring — promise
(`__len__` extracts `[0][0]`, `count` stops at `[0]`). -/
theorem count_returns_row_not_integer :
    insertSeq Option.none
        ((List.range 7).map (fun k => [("i".toList, PyVal.int k)])) =
      .ok (some sevenTab) ∧
    Collection.count (some sevenTab) (fun _ => true) =
      ([Stmt.selectCount], .ok [PyVal.int 7]) := by
  constructor
  · rfl
  · rfl

/-- Number of SELECT statements auto-pagination issues over `n` matching
rows with batch size `b`: one per page plus the final empty page
(`⌈n/b⌉ + 1`). -/
def numPages (n b : Nat) : Nat := (n + b - 1) / b + 1

theorem numPages_zero (b : Nat) (hb : 1 ≤ b) : numPages 0 b = 1 := by
  rw [numPages]
  have h : (0 + b - 1) / b = 0 := Nat.div_eq_of_lt (by omega)
  omega

theorem numPages_step (m b : Nat) (hb : 1 ≤ b) (hm : 1 ≤ m) :
    numPages m b = numPages (m - b) b + 1 := by
  rcases le_or_lt b m with h | h
  · have e1 : m + b - 1 = (m - 1) + b := by omega
    have e2 : m - b + b - 1 = m - 1 := by omega
    rw [numPages, numPages, e1, Nat.add_div_right _ (by omega), e2]
  · have e0 : m - b = 0 := by omega
    have h1 : (m + b - 1) / b = 1 := Nat.div_eq_of_lt_le (by omega) (by omega)
    have h2 : (0 + b - 1) / b = 0 := Nat.div_eq_of_lt (by omega)
    rw [numPages, numPages, e0, h1, h2]

theorem findLoop_spec (t : Table) (keep : List PyVal → Bool) (b : Nat) (hb : 1 ≤ b) :
    ∀ off docs,
    ((t.rows.filter keep).drop off).mapM (Collection.decodeRow t.cols) = some docs →
    Collection.findLoop (some t) keep b Option.none off =
      ((List.range (numPages ((t.rows.filter keep).length - off) b)).map
        (fun i => Stmt.selectPage b (off + b * i)), Except.ok docs) := by
  suffices h : ∀ m off docs, (t.rows.filter keep).length - off = m →
      ((t.rows.filter keep).drop off).mapM (Collection.decodeRow t.cols) = some docs →
      Collection.findLoop (some t) keep b Option.none off =
        ((List.range (numPages ((t.rows.filter keep).length - off) b)).map
          (fun i => Stmt.selectPage b (off + b * i)), Except.ok docs) by
    exact fun off docs hd => h ((t.rows.filter keep).length - off) off docs rfl hd
  intro m
  induction m using Nat.strong_induction_on with
  | _ m ih =>
      intro off docs hm hdec
      rcases le_or_lt (t.rows.filter keep).length off with hcase | hcase
      · have hdrop : (t.rows.filter keep).drop off = [] := List.drop_eq_nil_of_le hcase
        have hdocs : docs = [] := by
          rw [hdrop, List.mapM_nil] at hdec
          simpa using hdec.symm
        subst hdocs
        have hm0 : (t.rows.filter keep).length - off = 0 := by omega
        rw [hm0, numPages_zero b hb]
        rw [Collection.findLoop.eq_def]
        simp only []
        split
        · rw [show List.range 1 = [0] from rfl]
          simp
        · rename_i y ys hcons
          rw [hdrop, List.take_nil] at hcons
          simp at hcons
      · have hne : ((t.rows.filter keep).drop off).take b ≠ [] := by
          intro hnil
          rcases List.take_eq_nil_iff.mp hnil with hb0 | hdrop
          · omega
          · have hlen := congrArg List.length hdrop
            rw [List.length_drop] at hlen
            simp at hlen
            omega
        obtain ⟨y, ys, hp⟩ : ∃ y ys, ((t.rows.filter keep).drop off).take b = y :: ys := by
          cases hpp : ((t.rows.filter keep).drop off).take b with
          | nil => exact absurd hpp hne
          | cons y ys => exact ⟨y, ys, rfl⟩
        have hsplit : (t.rows.filter keep).drop off =
            ((t.rows.filter keep).drop off).take b ++ (t.rows.filter keep).drop (off + b) := by
          conv_lhs => rw [← List.take_append_drop b ((t.rows.filter keep).drop off)]
          rw [List.drop_drop]
        rw [hsplit, List.mapM_append] at hdec
        cases hd1 : ((t.rows.filter keep).drop off).take b |>.mapM (Collection.decodeRow t.cols) with
        | none => rw [hd1] at hdec; simp at hdec
        | some d1 =>
            rw [hd1] at hdec
            cases hd2 : ((t.rows.filter keep).drop (off + b)).mapM (Collection.decodeRow t.cols) with
            | none => rw [hd2] at hdec; simp at hdec
            | some d2 =>
                rw [hd2] at hdec
                have hdocs : docs = d1 ++ d2 := by simpa using hdec.symm
                subst hdocs
                have harg : (t.rows.filter keep).length - (off + b) =
                    ((t.rows.filter keep).length - off) - b := by omega
                have hrec := ih (((t.rows.filter keep).length - off) - b)
                  (by omega) (off + b) d2 (by omega) hd2
                rw [harg] at hrec
                have hd1y : (y :: ys).mapM (Collection.decodeRow t.cols) = some d1 := by
                  rw [← hp]; exact hd1
                rw [Collection.findLoop.eq_def]
                simp only []
                split
                · rename_i hnil
                  rw [hp] at hnil
                  simp at hnil
                · rename_i y2 ys2 hcons
                  rw [hp] at hcons
                  injection hcons with hy hys
                  subst hy
                  subst hys
                  simp only [hd1y]
                  rw [hrec]
                  have hstep : numPages ((t.rows.filter keep).length - off) b =
                      numPages (((t.rows.filter keep).length - off) - b) b + 1 :=
                    numPages_step _ b hb (by omega)
                  rw [hstep, List.range_succ_eq_map, List.map_cons, List.map_map]
                  simp only [Nat.mul_zero, Nat.add_zero, Except.map]
                  refine congrArg₂ Prod.mk (congrArg₂ List.cons rfl ?_) rfl
                  refine List.map_congr_left ?_
                  intro i _
                  simp only [Function.comp_apply]
                  congr 1
                  rw [Nat.succ_eq_add_one, Nat.mul_add, Nat.mul_one]
                  ring

/-- **C6**.  `find` with no explicit limit auto-paginates: every issued
statement is a SELECT carrying `LIMIT = batch_size`, the offsets are the
consecutive multiples `0, b, 2b, ...`, the loop issues exactly enough
pages to hit the first empty one, and the documents yielded are exactly
the decoded matching rows, each exactly once.  With an explicit limit,
exactly one SELECT carrying that limit is issued. -/
theorem find_autopagination (t : Table) (keep : List PyVal → Bool) (b : Nat)
    (hb : 1 ≤ b) (docs : List Doc)
    (hdec : (t.rows.filter keep).mapM (Collection.decodeRow t.cols) = some docs) :
    Collection.find (some t) keep b Option.none 0 =
      ((List.range (numPages (t.rows.filter keep).length b)).map
        (fun i => Stmt.selectPage b (b * i)), Except.ok docs) ∧
    ∀ (L off : Nat) (d1 : List Doc),
      (((t.rows.filter keep).drop off).take L).mapM (Collection.decodeRow t.cols) =
        some d1 →
      Collection.find (some t) keep b (some L) off =
        ([Stmt.selectPage L off], .ok d1) := by
  constructor
  · have h := findLoop_spec t keep b hb 0 docs (by simpa using hdec)
    rw [Collection.find, h]
    simp
  · intro L off d1 hd
    rw [Collection.find]
    simp only [Collection.findLoop, hd]

/-- The five documents `{i: k}` of the spec's pagination example. -/
def fiveTab : Table :=
  ⟨["i".toList],
    [[PyVal.int 0], [PyVal.int 1], [PyVal.int 2], [PyVal.int 3], [PyVal.int 4]]⟩

/-- The five decoded documents of the pagination example. -/
def fiveDocs : List Doc := (List.range 5).map (fun k => [("i".toList, PyVal.int k)])

/-- Witness for **C6**: `find(batch_size=2)` with no explicit limit over 5
inserted documents yields exactly those 5 documents, each exactly once,
issuing SELECTs at offsets 0, 2, 4, 6 with LIMIT 2. -/
theorem find_autopagination_witness :
    (1 ≤ 2 ∧ (fiveTab.rows.filter (fun _ => true)).mapM
        (Collection.decodeRow fiveTab.cols) = some fiveDocs) ∧
    (Collection.find (some fiveTab) (fun _ => true) 2 Option.none 0 =
        ((List.range (numPages (fiveTab.rows.filter (fun _ => true)).length 2)).map
          (fun i => Stmt.selectPage 2 (2 * i)), Except.ok fiveDocs) ∧
      ∀ (L off : Nat) (d1 : List Doc),
        (((fiveTab.rows.filter (fun _ => true)).drop off).take L).mapM
            (Collection.decodeRow fiveTab.cols) = some d1 →
        Collection.find (some fiveTab) (fun _ => true) 2 (some L) off =
          ([Stmt.selectPage L off], .ok d1)) :=
  ⟨⟨by omega, by rfl⟩,
    find_autopagination fiveTab (fun _ => true) 2 (by omega) fiveDocs (by rfl)⟩

/-- **C9**.  `find` on a collection whose table has never been created
yields the empty sequence — no statement is even issued and no error is
raised — for every filter, batch size, limit and offset. -/
theorem find_missing_table (keep : List PyVal → Bool) (batch : Nat)
    (limit : Option Nat) (offset : Nat) :
    Collection.find Option.none keep batch limit offset = ([], .ok []) := by
  rw [Collection.find]
  simp [Collection.findLoop]

theorem addLoop_cols_grow : ∀ (cs : List (List Char)) (ts ts1 : TableState),
    (Collection.addLoop ts cs).2 = .ok ts1 →
    Collection._columns ts ⊆ Collection._columns ts1 := by
  intro cs
  induction cs with
  | nil =>
      intro ts ts1 h
      simp only [Collection.addLoop] at h
      cases h
      exact fun x hx => hx
  | cons c rest ih =>
      intro ts ts1 h
      simp only [Collection.addLoop] at h
      cases hts : ts with
      | none =>
          rw [hts] at h
          simp [engineAlterAdd, clientCall] at h
      | some t =>
          rw [hts] at h
          by_cases hc : c ∈ t.cols
          · simp [engineAlterAdd, clientCall, hc] at h
          · simp only [engineAlterAdd, clientCall, if_neg hc] at h
            have hsub := ih _ _ h
            intro x hx
            refine hsub ?_
            simp only [Collection._columns, enginePragma, List.mem_append]
            exact Or.inl hx

theorem add_columns_cols_grow (ts ts1 : TableState) (cs : List (List Char))
    (h : (Collection._add_columns ts cs).2 = .ok ts1) :
    Collection._columns ts ⊆ Collection._columns ts1 := by
  rw [Collection._add_columns] at h
  cases hv : Collection._validate_column_names cs with
  | error e => rw [hv] at h; simp at h
  | ok u => rw [hv] at h; exact addLoop_cols_grow cs ts ts1 h

theorem insertRow_cols_eq (ts ts1 : TableState) (d : Doc)
    (h : clientCall (engineInsertRow ts d) = .ok ts1) :
    Collection._columns ts1 = Collection._columns ts := by
  cases ts with
  | none => simp [engineInsertRow, clientCall] at h
  | some t =>
      by_cases hall : (docKeys d).all (fun k => t.cols.contains k)
      · simp only [engineInsertRow, clientCall, if_pos hall] at h
        cases h
        rfl
      · simp only [engineInsertRow, clientCall] at h
        rw [if_neg hall] at h
        simp at h

/-- The spec's schema-evolution example documents and states. -/
def docAB : Doc := [("a".toList, PyVal.int 1), ("b".toList, PyVal.int 2)]

/-- `{a: 3, c: 4}`, the second insert of the example. -/
def docAC : Doc := [("a".toList, PyVal.int 3), ("c".toList, PyVal.int 4)]

/-- The table after inserting `{a: 1, b: 2}` into an empty collection. -/
def tabAB : Table := ⟨["a".toList, "b".toList], [[PyVal.int 1, PyVal.int 2]]⟩

/-- The table after the second insert `{a: 3, c: 4}`. -/
def tabABC : Table :=
  ⟨["a".toList, "b".toList, "c".toList],
   [[PyVal.int 1, PyVal.int 2, PyVal.none], [PyVal.int 3, PyVal.none, PyVal.int 4]]⟩

/-- **C7**.  Inserting `{a:1, b:2}` into an empty collection creates the
table with exactly columns `{a, b}`; the subsequent insert `{a:3, c:4}`
adds only column `c` (padding the first row with NULL); re-reading via
`find` shows the first document without any `c` field (sparse semantics:
null-valued fields are omitted); and in general a successful insert never
removes a column — the column set only grows. -/
theorem insert_schema_growth :
    (Collection.insert Option.none docAB).2 = .ok (some tabAB) ∧
    (Collection.insert (some tabAB) docAC).2 = .ok (some tabABC) ∧
    (Collection.find (some tabABC) (fun _ => true) 50 Option.none 0).2 =
      .ok [docAB, docAC] ∧
    ∀ (ts : TableState) (d : Doc) (ts1 : TableState),
      (Collection.insert ts d).2 = .ok ts1 →
      Collection._columns ts ⊆ Collection._columns ts1 := by
  refine ⟨rfl, rfl, ?_, ?_⟩
  · have h := findLoop_spec tabABC (fun _ => true) 50 (by omega) 0 [docAB, docAC] rfl
    rw [Collection.find, h]
  · intro ts d ts1 h
    simp only [Collection.insert] at h
    by_cases hemp : (Collection._columns ts).isEmpty
    · intro x hx
      rw [List.isEmpty_iff] at hemp
      rw [hemp] at hx
      simp at hx
    · simp only [hemp, Bool.false_eq_true, if_neg, if_false] at h
      rcases hev : Collection._add_columns ts
          ((docKeys d).filter (fun k => !((Collection._columns ts).contains k))) with ⟨alog, ares⟩
      rw [hev] at h
      cases ares with
      | error e => simp at h
      | ok tsMid =>
          simp only at h
          cases hins : clientCall (engineInsertRow tsMid d) with
          | error e => rw [hins] at h; simp at h
          | ok ts2 =>
              rw [hins] at h
              simp only [Except.ok.injEq] at h
              subst h
              have h1 := add_columns_cols_grow ts tsMid _ (by rw [hev])
              have h2 := insertRow_cols_eq tsMid ts2 d hins
              rw [h2]
              exact h1

theorem validate_ok (cols : List (List Char)) (h : ∀ c ∈ cols, ¬ '"' ∈ c) :
    Collection._validate_column_names cols = .ok () := by
  rw [Collection._validate_column_names]
  cases hf : cols.find? (fun c => c.contains '"') with
  | none => rfl
  | some c =>
      have hc := List.find?_some hf
      have hmem := List.mem_of_find?_eq_some hf
      exact absurd (List.elem_iff.mp hc) (h c hmem)

/-- **C8** (amended).  A column name containing the double quote is
rejected with a `ValueError` before any *schema-modifying or writing*
statement is issued: the only statement on the log is the read-only
`PRAGMA table_info` that `insert` uses to diff the schema.  Names without
the quote character pass validation. -/
theorem column_name_validation (ts : TableState) (d : Doc)
    (hbad : ∃ k ∈ docKeys d, '"' ∈ k ∧ k ∉ Collection._columns ts) :
    ((Collection.insert ts d).1 = [Stmt.pragmaTableInfo] ∧
      (Collection.insert ts d).2 = .error (Err.valueError Collection.quoteMsg)) ∧
    ∀ cols : List (List Char), (∀ c ∈ cols, ¬ '"' ∈ c) →
      Collection._validate_column_names cols = .ok () := by
  refine ⟨?_, fun cols hc => validate_ok cols hc⟩
  obtain ⟨k, hk, hq, hnc⟩ := hbad
  have hknew : k ∈ (docKeys d).filter (fun k => !((Collection._columns ts).contains k)) := by
    rw [List.mem_filter]
    refine ⟨hk, ?_⟩
    cases hcc : (Collection._columns ts).contains k with
    | false => simp
    | true => exact absurd (List.elem_iff.mp hcc) hnc
  have hvErr : Collection._validate_column_names
      ((docKeys d).filter (fun k => !((Collection._columns ts).contains k))) =
      .error (.valueError Collection.quoteMsg) := by
    rw [Collection._validate_column_names]
    cases hf : ((docKeys d).filter
        (fun k => !((Collection._columns ts).contains k))).find? (fun c => c.contains '"') with
    | some c => rfl
    | none =>
        exfalso
        exact List.find?_eq_none.mp hf k hknew (List.elem_iff.mpr hq)
  by_cases hemp : (Collection._columns ts).isEmpty
  · constructor
    · simp only [Collection.insert, hemp, if_pos, Collection._create, hvErr]
    · simp only [Collection.insert, hemp, if_pos, Collection._create, hvErr]
  · constructor
    · simp only [Collection.insert, hemp, Bool.false_eq_true, if_neg, if_false,
        Collection._add_columns, hvErr]
    · simp only [Collection.insert, hemp, Bool.false_eq_true, if_neg, if_false,
        Collection._add_columns, hvErr]

/-- Witness for **C8**: inserting `{a"b: 1}` into a fresh collection. -/
theorem column_name_validation_witness :
    (∃ k ∈ docKeys [("a\"b".toList, PyVal.int 1)],
        '"' ∈ k ∧ k ∉ Collection._columns Option.none) ∧
    (((Collection.insert Option.none [("a\"b".toList, PyVal.int 1)]).1 =
          [Stmt.pragmaTableInfo] ∧
        (Collection.insert Option.none [("a\"b".toList, PyVal.int 1)]).2 =
          .error (Err.valueError Collection.quoteMsg)) ∧
      ∀ cols : List (List Char), (∀ c ∈ cols, ¬ '"' ∈ c) →
        Collection._validate_column_names cols = .ok ()) :=
  ⟨by decide, column_name_validation Option.none [("a\"b".toList, PyVal.int 1)] (by decide)⟩

/-- **C8** (counterexample).  The claim's "before any statement is issued
to the storage engine" is literally false for `insert`: the quoted column
name `a"b` is rejected with a `ValueError`, but only after the read-only
`PRAGMA table_info` statement was already issued (the log is nonempty). -/
theorem validation_preceded_by_read_counterexample :
    (Collection.insert Option.none [("a\"b".toList, PyVal.int 1)]).2 =
      .error (Err.valueError Collection.quoteMsg) ∧
    (Collection.insert Option.none [("a\"b".toList, PyVal.int 1)]).1 =
      [Stmt.pragmaTableInfo] ∧
    (Collection.insert Option.none [("a\"b".toList, PyVal.int 1)]).1 ≠ [] := by
  refine ⟨rfl, rfl, ?_⟩
  decide

/-- **C10**.  `len()` of a collection whose table has never been created
returns 0: the `COUNT(*)` on the missing table raises `RuntimeError`
(wrapped from the engine's "no such table"), the handler checks that the
column set is empty, and 0 is returned instead of propagating the
error. -/
theorem len_missing_table :
    Collection.lenColl Option.none = ([Stmt.selectCount, Stmt.pragmaTableInfo], .ok 0) := rfl

end Nosqlite
